import Mathlib

/-!
Verification development for the `bodyguard` JSON assertion library.

The Go source (`bodyguard.go`) decodes a JSON body into a generic value tree
(`interface{}` holding `nil`, `bool`, `float64`, `string`, `[]interface{}` or
`map[string]interface{}`) and recursively matches it against an expected
shape, which is either a `Matcher` or a literal Go value.

The embedding below mirrors that code:
  * `Json` is the decoded value tree (JSON numbers are decoded as `float64`;
    we model them as exact rationals, which represents the subset of floats
    that occur in the properties of interest exactly).
  * `Lit` is a literal expected value together with its Go static kind
    (the kind drives both `reflect.DeepEqual` and the integer coercion
    `switch` in `match`).
  * `Expected` is the expected-shape tree: a literal or one of the matchers
    the development needs (`Object`, `StrictObject`, `Array`,
    `UnorderedArray`, `OneOf`, `Regexp`, `TimeWithinRange`).
  * `matchVal` is the Go function `match` together with the matcher closures
    it can dispatch to; the loops inside `Object`, `StrictObject`, `Array`
    and `UnorderedArray` become the mutually recursive helpers
    `matchFields`, `matchElems`, `matchGreedy` and `probeScan`.

External collaborators (the stdlib regexp engine and the RFC 3339 time
parser) are modelled as abstract parameters (`RegexEngine`, `Env`): the Go
code only observes them through compile/parse success or failure.
-/

namespace Bodyguard

/-- The result of a matcher: Go's `error` return (`nil` = success). -/
inductive Res where
  | ok
  | fail (msg : String)
deriving DecidableEq, Repr

/-- Decoded JSON value, as produced by `encoding/json` unmarshalling into
`interface{}`: `nil`, `bool`, `float64`, `string`, `[]interface{}` or
`map[string]interface{}` (association list of distinct keys). Numbers are
modelled as exact rationals. -/
inductive Json where
  | null
  | bool (b : Bool)
  | num (q : ℚ)
  | str (s : String)
  | arr (xs : List Json)
  | obj (kvs : List (String × Json))

/-- Go signed-integer kinds covered by the coercion switch in `match`. -/
inductive IntKind where
  | int | int8 | int16 | int32 | int64
deriving DecidableEq, Repr

/-- Go unsigned-integer kinds (not covered by the coercion switch). -/
inductive UIntKind where
  | uint | uint8 | uint16 | uint32 | uint64
deriving DecidableEq, Repr

/-- A literal (non-`Matcher`) expected value with its Go static kind.
Literal containers are expressed through the container matchers in all the
properties considered, so literals are scalars here. -/
inductive Lit where
  | nullL
  | boolL (b : Bool)
  | intL (k : IntKind) (n : ℤ)
  | uintL (k : UIntKind) (n : ℕ)
  | floatL (q : ℚ)
  | strL (s : String)
deriving DecidableEq, Repr

/-- Expected-shape tree: a literal value or a matcher. In Go a matcher is a
closure; `regexpM` carries the result of the `regexp.Compile` call performed
at construction time, and `timeWithinRangeM` carries the two instants (an
instant modelled as an integer, ordered as `time.Time.Before/After`). -/
inductive Expected where
  | lit (l : Lit)
  | objectM (fields : List (String × Expected))
  | strictObjectM (fields : List (String × Expected))
  | arrayM (elems : List Expected)
  | unorderedArrayM (elems : List Expected)
  | oneOfM (options : List String)
  | regexpM (pattern : String) (compiled : Except String (String → Bool))
  | timeWithinRangeM (startT endT : ℤ)

/-- Abstract stdlib regexp engine: `compile` returns a match predicate or a
compile error message (`regexp.Compile`). -/
structure RegexEngine where
  compile : String → Except String (String → Bool)

/-- Abstract environment for the external RFC 3339 parser
(`time.Parse(time.RFC3339, s)`): a parsed instant or an error message. -/
structure Env where
  rfc3339 : String → Except String ℤ

/-- A concrete environment, used to instantiate closed statements. -/
def defaultEnv : Env :=
  ⟨fun _ => Except.error "cannot parse as RFC3339"⟩

/-- Go map lookup on an association list (first binding wins; decoded JSON
objects and Go map literals have distinct keys). -/
def lookupKey {α : Type} (k : String) : List (String × α) → Option α
  | [] => none
  | (k', v) :: rest => if k' = k then some v else lookupKey k rest

/-- The keys of an association list. -/
def keysOf {α : Type} (l : List (String × α)) : List String :=
  l.map Prod.fst

/-- Go `fmt` `%q` of a string: quoted form. Exact for strings without
characters needing escapes, which covers all the properties considered. -/
def goQuote (s : String) : String :=
  "\"" ++ s ++ "\""

/-- Go `%v` of a rational modelling a `float64`: exact for integral values
(Go prints `456` for `456.0`); non-integral values are printed as
`num/den`, an approximation of Go's `%g` that no considered property
inspects. -/
def fmtQ (q : ℚ) : String :=
  if q.den = 1 then toString q.num else toString q

/-- Go `%v` of a `time.Time` instant, abstracted to the instant's number.
No considered property inspects this rendering. -/
def fmtTime (t : ℤ) : String :=
  toString t

/-- Go `%T` of a decoded JSON value. -/
def goTypeJson : Json → String
  | .null => "<nil>"
  | .bool _ => "bool"
  | .num _ => "float64"
  | .str _ => "string"
  | .arr _ => "[]interface {}"
  | .obj _ => "map[string]interface {}"

/-- Go `%T` of a literal expected value. -/
def goTypeLit : Lit → String
  | .nullL => "<nil>"
  | .boolL _ => "bool"
  | .intL .int _ => "int"
  | .intL .int8 _ => "int8"
  | .intL .int16 _ => "int16"
  | .intL .int32 _ => "int32"
  | .intL .int64 _ => "int64"
  | .uintL .uint _ => "uint"
  | .uintL .uint8 _ => "uint8"
  | .uintL .uint16 _ => "uint16"
  | .uintL .uint32 _ => "uint32"
  | .uintL .uint64 _ => "uint64"
  | .floatL _ => "float64"
  | .strL _ => "string"

mutual

/-- Go `%v` of a decoded JSON value. Containers follow Go's bracketed
space-separated rendering; no considered property prints a container. -/
def fmtJson : Json → String
  | .null => "<nil>"
  | .bool b => toString b
  | .num q => fmtQ q
  | .str s => s
  | .arr xs => "[" ++ fmtJsonList xs ++ "]"
  | .obj kvs => "map[" ++ fmtJsonKVs kvs ++ "]"

def fmtJsonList : List Json → String
  | [] => ""
  | [x] => fmtJson x
  | x :: xs => fmtJson x ++ " " ++ fmtJsonList xs

def fmtJsonKVs : List (String × Json) → String
  | [] => ""
  | [(k, v)] => k ++ ":" ++ fmtJson v
  | (k, v) :: kvs => k ++ ":" ++ fmtJson v ++ " " ++ fmtJsonKVs kvs

end

/-- Go `%v` of a literal expected value. -/
def fmtLit : Lit → String
  | .nullL => "<nil>"
  | .boolL b => toString b
  | .intL _ n => toString n
  | .uintL _ n => toString n
  | .floatL q => fmtQ q
  | .strL s => s

/-- Go `%v` of an expected node. A `MatcherFunc` value prints as a function
pointer in Go; the placeholder below stands for that (no considered property
prints a matcher). -/
def fmtExpected : Expected → String
  | .lit l => fmtLit l
  | _ => "<matcher>"

/-- Go `%v` of a `[]string`, as printed by `OneOf`'s failure. -/
def fmtStrSlice (opts : List String) : String :=
  "[" ++ String.intercalate " " opts ++ "]"

/-- Child path for object descent: `fmt.Sprintf("%s.%s", path, key)`. -/
def keyPath (path k : String) : String :=
  path ++ "." ++ k

/-- Child path for array descent: `fmt.Sprintf("%s[%d]", path, i)`. -/
def idxPath (path : String) (i : ℕ) : String :=
  path ++ "[" ++ toString i ++ "]"

/-- `fmt.Errorf("at %s: ...", path, ...)` prefixing. -/
def atPath (path body : String) : String :=
  "at " ++ path ++ ": " ++ body

/-- The final literal-mismatch message of `match`:
`"at %s: expected %v (%T), got %v (%T)"`. -/
def mismatchMsg (path eV eT aV aT : String) : String :=
  atPath path ("expected " ++ eV ++ " (" ++ eT ++ "), got " ++ aV ++ " (" ++ aT ++ ")")

/-- `"at %s: missing key %q"` from `Object`/`StrictObject`. -/
def missingKeyMsg (path k : String) : String :=
  atPath path ("missing key " ++ goQuote k)

/-- `"at %s: unexpected key %q"` from `StrictObject`. -/
def unexpectedKeyMsg (path k : String) : String :=
  atPath path ("unexpected key " ++ goQuote k)

/-- `"at %s: expected array length %d, got %d"`. -/
def lengthMsg (path : String) (want got : ℕ) : String :=
  atPath path ("expected array length " ++ toString want ++ ", got " ++ toString got)

/-- `"at %s: expected object, got %T"`. -/
def expectedObjectMsg (path : String) (v : Json) : String :=
  atPath path ("expected object, got " ++ goTypeJson v)

/-- `"at %s: expected array, got %T"`. -/
def expectedArrayMsg (path : String) (v : Json) : String :=
  atPath path ("expected array, got " ++ goTypeJson v)

/-- `"at %s: expected string, got %T"` from `stringValue`. -/
def expectedStringMsg (path : String) (v : Json) : String :=
  atPath path ("expected string, got " ++ goTypeJson v)

/-- `"at %s: expected time string, got %T"` from `timeValue`. -/
def expectedTimeStringMsg (path : String) (v : Json) : String :=
  atPath path ("expected time string, got " ++ goTypeJson v)

/-- `"at %s: expected element %v (index %d) not found in remaining actual
elements"` from `UnorderedArray`. -/
def unorderedNotFoundMsg (path : String) (e : Expected) (i : ℕ) : String :=
  atPath path ("expected element " ++ fmtExpected e ++ " (index " ++ toString i ++
    ") not found in remaining actual elements")

/-- `"invalid regexp pattern %q: %w"` wrapped by `stringValue`. -/
def invalidPatternMsg (path pattern err : String) : String :=
  atPath path ("invalid regexp pattern " ++ goQuote pattern ++ ": " ++ err)

/-- `"expected to match %q, got %q"` wrapped by `stringValue`. -/
def regexpNoMatchMsg (path pattern s : String) : String :=
  atPath path ("expected to match " ++ goQuote pattern ++ ", got " ++ goQuote s)

/-- `"expected one of %v, got %q"` wrapped by `stringValue`. -/
def oneOfMsg (path : String) (opts : List String) (s : String) : String :=
  atPath path ("expected one of " ++ fmtStrSlice opts ++ ", got " ++ goQuote s)

/-- `"expected time between %v and %v, got %v"` wrapped by `timeValue`. -/
def timeRangeMsg (path : String) (a b t : ℤ) : String :=
  atPath path ("expected time between " ++ fmtTime a ++ " and " ++ fmtTime b ++
    ", got " ++ fmtTime t)

/-- `reflect.DeepEqual(expected, actual)` between a literal expected value
and a decoded JSON value. Decoded values have dynamic types `nil`, `bool`,
`float64`, `string`, `[]interface{}` or `map[string]interface{}`, so a
declared-integer literal (any signedness) is never deeply equal to a decoded
value: the types differ. -/
def deepEqualLit : Lit → Json → Bool
  | .nullL, .null => true
  | .boolL b, .bool c => b = c
  | .floatL q, .num r => q = r
  | .strL s, .str t => s = t
  | _, _ => false

/-- The coercion `switch` in `match`: only for signed-integer kinds, and only
against a `float64` actual, `float64(val.Int()) == f64` exactly. -/
def intCoerce : Lit → Json → Bool
  | .intL _ n, .num q => (n : ℚ) = q
  | _, _ => false

/-- The unexpected-key loop at the top of `StrictObject`: every key of the
actual map must be a key of the expected map. -/
def checkNoExtra (expected : List (String × Expected)) :
    List (String × Json) → String → Res
  | [], _ => .ok
  | (k, _) :: rest, path =>
    if (lookupKey k expected).isSome then checkNoExtra expected rest path
    else .fail (unexpectedKeyMsg path k)

mutual

/-- The Go function `match(expected, path, actual)` fused with the matcher
closures it can dispatch to. A `Matcher` expected node is invoked directly;
a literal is compared by `reflect.DeepEqual`, then by the signed-integer
coercion rule, and otherwise fails with the mismatch message. -/
def matchVal (env : Env) : Expected → String → Json → Res
  | .lit l, path, v =>
    if deepEqualLit l v then .ok
    else if intCoerce l v then .ok
    else .fail (mismatchMsg path (fmtLit l) (goTypeLit l) (fmtJson v) (goTypeJson v))
  | .oneOfM opts, path, .str s =>
    if s ∈ opts then .ok else .fail (oneOfMsg path opts s)
  | .oneOfM _, path, v => .fail (expectedStringMsg path v)
  | .regexpM pattern c, path, .str s =>
    match c with
    | .error e => .fail (invalidPatternMsg path pattern e)
    | .ok f => if f s then .ok else .fail (regexpNoMatchMsg path pattern s)
  | .regexpM _ _, path, v => .fail (expectedStringMsg path v)
  | .timeWithinRangeM a b, path, .str s =>
    match env.rfc3339 s with
    | .error e => .fail (atPath path e)
    | .ok t =>
      if t < a ∨ b < t then .fail (timeRangeMsg path a b t) else .ok
  | .timeWithinRangeM _ _, path, v => .fail (expectedTimeStringMsg path v)
  | .objectM fields, path, .obj kvs => matchFields env fields kvs path
  | .objectM _, path, v => .fail (expectedObjectMsg path v)
  | .strictObjectM fields, path, .obj kvs =>
    match checkNoExtra fields kvs path with
    | .fail e => .fail e
    | .ok => matchFields env fields kvs path
  | .strictObjectM _, path, v => .fail (expectedObjectMsg path v)
  | .arrayM elems, path, .arr xs =>
    if xs.length = elems.length then matchElems env elems xs path 0
    else .fail (lengthMsg path elems.length xs.length)
  | .arrayM _, path, v => .fail (expectedArrayMsg path v)
  | .unorderedArrayM elems, path, .arr xs =>
    if xs.length = elems.length then
      matchGreedy env elems xs (List.replicate xs.length false) path 0
    else .fail (lengthMsg path elems.length xs.length)
  | .unorderedArrayM _, path, v => .fail (expectedArrayMsg path v)
termination_by e _ _ => (sizeOf e, 0)

/-- The key loop shared by `Object` and `StrictObject`: each expected key
must exist in the actual map and its value must match recursively at the
extended path; the first failure is returned. -/
def matchFields (env : Env) :
    List (String × Expected) → List (String × Json) → String → Res
  | [], _, _ => .ok
  | (k, ev) :: rest, kvs, path =>
    match lookupKey k kvs with
    | none => .fail (missingKeyMsg path k)
    | some av =>
      match matchVal env ev (keyPath path k) av with
      | .fail e => .fail e
      | .ok => matchFields env rest kvs path
termination_by fields _ _ => (sizeOf fields, 0)

/-- The position loop of `Array`: element `i` against expected element `i`
at path `path[i]` (only invoked with equal lengths). -/
def matchElems (env : Env) : List Expected → List Json → String → ℕ → Res
  | [], _, _, _ => .ok
  | e :: es, x :: xs, path, i =>
    match matchVal env e (idxPath path i) x with
    | .fail msg => .fail msg
    | .ok => matchElems env es xs path (i + 1)
  | _ :: _, [], _, _ => .ok
termination_by es _ _ _ => (sizeOf es, 0)

/-- The greedy loop of `UnorderedArray`: for each expected element in order,
consume the first not-yet-used actual element that matches; fail citing the
expected element and its index when none is left. -/
def matchGreedy (env : Env) :
    List Expected → List Json → List Bool → String → ℕ → Res
  | [], _, _, _, _ => .ok
  | e :: es, xs, used, path, i =>
    match probeScan env e xs used with
    | some used' => matchGreedy env es xs used' path (i + 1)
    | none => .fail (unorderedNotFoundMsg path e i)
termination_by es _ _ _ _ => (sizeOf es, 0)

/-- The inner scan of `UnorderedArray`: walk the actual elements and their
`used` flags in lockstep, skip used ones, probe with the dummy path
`"probe"`, and mark the first element that matches. Returns the updated
flags, or `none` when no unused element matches. -/
def probeScan (env : Env) (e : Expected) : List Json → List Bool → Option (List Bool)
  | [], _ => none
  | _ :: _, [] => none
  | x :: xs, u :: us =>
    if u then (probeScan env e xs us).map (u :: ·)
    else
      match matchVal env e "probe" x with
      | .ok => some (true :: us)
      | .fail _ => (probeScan env e xs us).map (u :: ·)
termination_by xs _ => (sizeOf e, xs.length)

end

/-- The decoded (`encoding/json`) form of a scalar literal: what the literal
round-trips to when it appears in the JSON body (numbers decode as
`float64`). -/
def decodeLit : Lit → Json
  | .nullL => .null
  | .boolL b => .bool b
  | .intL _ n => .num (n : ℚ)
  | .uintL _ n => .num (n : ℚ)
  | .floatL q => .num (q : ℚ)
  | .strL s => .str s

/-- Scalar literal kinds whose matching behaviour is exact equality with
their decoded form: everything except unsigned-integer literals, which are
excluded from the coercion switch of `match` and so never match a decoded
number (see the C9 theorem). -/
def isScalarLit : Lit → Bool
  | .uintL _ _ => false
  | _ => true

/-- The actual elements whose `used` flag is still false, in order: the
candidates the `UnorderedArray` scan may still consume. -/
def unusedVals : List Json → List Bool → List Json
  | [], _ => []
  | _ :: _, [] => []
  | x :: xs, u :: us => if u then unusedVals xs us else x :: unusedVals xs us

/-- `needle` occurs as a contiguous substring of `hay`. -/
def strContains (hay needle : String) : Bool :=
  (List.range (hay.data.length + 1)).any fun i => needle.data.isPrefixOf (hay.data.drop i)

/-- Factory `Object(expected)`. -/
def Object (expected : List (String × Expected)) : Expected :=
  .objectM expected

/-- Factory `StrictObject(expected)`. -/
def StrictObject (expected : List (String × Expected)) : Expected :=
  .strictObjectM expected

/-- Factory `Array(elements...)`. -/
def ArrayOf (elements : List Expected) : Expected :=
  .arrayM elements

/-- Factory `UnorderedArray(elements...)`. -/
def UnorderedArray (elements : List Expected) : Expected :=
  .unorderedArrayM elements

/-- Factory `OneOf(options...)`. -/
def OneOf (options : List String) : Expected :=
  .oneOfM options

/-- Factory `Regexp(pattern)`: compiles the pattern eagerly (a total
operation: a compile error is captured as a value, never raised) and closes
over the result; the error is only surfaced when the matcher runs on a
string value. -/
def Regexp (eng : RegexEngine) (pattern : String) : Expected :=
  .regexpM pattern (eng.compile pattern)

/-- Factory `TimeWithinRange(startTime, endTime)`. -/
def TimeWithinRange (startT endT : ℤ) : Expected :=
  .timeWithinRangeM startT endT

/-! ### Characterisations of the container loops -/

theorem matchFields_ok_iff (env : Env) (E : List (String × Expected))
    (A : List (String × Json)) (path : String) :
    matchFields env E A path = .ok ↔
      ∀ kv ∈ E, ∃ av, lookupKey kv.1 A = some av ∧
        matchVal env kv.2 (keyPath path kv.1) av = .ok := by
  induction E with
  | nil => simp [matchFields]
  | cons hd tl ih =>
    obtain ⟨k, ev⟩ := hd
    cases hlk : lookupKey k A with
    | none =>
      simp only [matchFields, hlk, List.forall_mem_cons]
      constructor
      · intro h; cases h
      · rintro ⟨⟨av, hav, -⟩, -⟩; cases hav
    | some av =>
      cases hm : matchVal env ev (keyPath path k) av with
      | fail msg =>
        simp only [matchFields, hlk, hm, List.forall_mem_cons]
        constructor
        · intro h; cases h
        · rintro ⟨⟨av', hav', hm'⟩, -⟩
          cases hav'
          rw [hm] at hm'
          cases hm'
      | ok =>
        simp only [matchFields, hlk, hm, List.forall_mem_cons, ih]
        constructor
        · intro h; exact ⟨⟨av, rfl, hm⟩, h⟩
        · rintro ⟨-, h⟩; exact h

theorem matchFields_missing (env : Env) (E : List (String × Expected))
    (A : List (String × Json)) (path : String)
    (hgood : ∀ kv ∈ E, ∀ av, lookupKey kv.1 A = some av →
      matchVal env kv.2 (keyPath path kv.1) av = .ok)
    (hmiss : ∃ kv ∈ E, lookupKey kv.1 A = none) :
    ∃ k, k ∈ keysOf E ∧ lookupKey k A = none ∧
      matchFields env E A path = .fail (missingKeyMsg path k) := by
  induction E with
  | nil => simp at hmiss
  | cons hd tl ih =>
    obtain ⟨k, ev⟩ := hd
    cases hlk : lookupKey k A with
    | none =>
      exact ⟨k, by simp [keysOf], hlk, by simp [matchFields, hlk]⟩
    | some av =>
      have hok : matchVal env ev (keyPath path k) av = .ok :=
        hgood (k, ev) (by simp) av hlk
      have hmiss' : ∃ kv ∈ tl, lookupKey kv.1 A = none := by
        obtain ⟨kv, hkv, hn⟩ := hmiss
        rcases List.mem_cons.mp hkv with h | h
        · subst h; rw [hlk] at hn; cases hn
        · exact ⟨kv, h, hn⟩
      obtain ⟨k', h1, h2, h3⟩ :=
        ih (fun kv hkv av hav => hgood kv (List.mem_cons_of_mem _ hkv) av hav) hmiss'
      refine ⟨k', ?_, h2, ?_⟩
      · simp only [keysOf, List.map_cons, List.mem_cons]
        exact Or.inr h1
      · simp [matchFields, hlk, hok, h3]

theorem checkNoExtra_ok_iff (E : List (String × Expected))
    (A : List (String × Json)) (path : String) :
    checkNoExtra E A path = .ok ↔ ∀ kv ∈ A, (lookupKey kv.1 E).isSome = true := by
  induction A with
  | nil => simp [checkNoExtra]
  | cons hd tl ih =>
    obtain ⟨k, jv⟩ := hd
    cases hlk : (lookupKey k E).isSome with
    | false => simp [checkNoExtra, hlk, List.forall_mem_cons]
    | true => simp [checkNoExtra, hlk, List.forall_mem_cons, ih]

theorem checkNoExtra_extra (E : List (String × Expected))
    (A : List (String × Json)) (path : String)
    (h : ∃ kv ∈ A, lookupKey kv.1 E = none) :
    ∃ k, k ∈ keysOf A ∧ lookupKey k E = none ∧
      checkNoExtra E A path = .fail (unexpectedKeyMsg path k) := by
  induction A with
  | nil => simp at h
  | cons hd tl ih =>
    obtain ⟨k, jv⟩ := hd
    cases hlk : lookupKey k E with
    | none =>
      refine ⟨k, by simp [keysOf], hlk, ?_⟩
      simp [checkNoExtra, hlk]
    | some ev =>
      have h' : ∃ kv ∈ tl, lookupKey kv.1 E = none := by
        obtain ⟨kv, hkv, hn⟩ := h
        rcases List.mem_cons.mp hkv with he | he
        · subst he; rw [hlk] at hn; cases hn
        · exact ⟨kv, he, hn⟩
      obtain ⟨k', h1, h2, h3⟩ := ih h'
      refine ⟨k', ?_, h2, ?_⟩
      · simp only [keysOf, List.map_cons, List.mem_cons]
        exact Or.inr h1
      · simp [checkNoExtra, hlk, h3]

theorem matchElems_ok_iff (env : Env) (es : List Expected) :
    ∀ (xs : List Json) (path : String) (i : ℕ), es.length = xs.length →
    (matchElems env es xs path i = .ok ↔
      ∀ j (h1 : j < es.length) (h2 : j < xs.length),
        matchVal env (es.get ⟨j, h1⟩) (idxPath path (i + j)) (xs.get ⟨j, h2⟩) = .ok) := by
  induction es with
  | nil => intro xs path i _; simp [matchElems]
  | cons e es' ih =>
    intro xs path i hlen
    cases xs with
    | nil => simp at hlen
    | cons x xs' =>
      have hlen' : es'.length = xs'.length := by simpa using hlen
      cases hm : matchVal env e (idxPath path i) x with
      | fail msg =>
        simp only [matchElems, hm]
        constructor
        · intro h; cases h
        · intro h
          have h0 := h 0 (by simp) (by simp)
          simp only [List.get] at h0
          rw [Nat.add_zero] at h0
          rw [hm] at h0
          cases h0
      | ok =>
        have heq : matchElems env (e :: es') (x :: xs') path i =
            matchElems env es' xs' path (i + 1) := by
          simp [matchElems, hm]
        rw [heq, ih xs' path (i + 1) hlen']
        constructor
        · intro h j h1 h2
          simp only [List.length_cons] at h1 h2
          cases j with
          | zero =>
            simpa only [List.get, Nat.add_zero] using hm
          | succ j' =>
            have := h j' (by omega) (by omega)
            rwa [(by omega : i + 1 + j' = i + (j' + 1))] at this
        · intro h j h1 h2
          have := h (j + 1) (by simp only [List.length_cons]; omega)
            (by simp only [List.length_cons]; omega)
          simp only [List.get] at this
          rwa [(by omega : i + (j + 1) = i + 1 + j)] at this

/-! ### The greedy scan of `UnorderedArray` -/

theorem mem_split_first {α : Type} {d : α} {l : List α} (h : d ∈ l) :
    ∃ l₁ l₂, l = l₁ ++ d :: l₂ ∧ d ∉ l₁ := by
  induction l with
  | nil => cases h
  | cons x xs ih =>
    by_cases hx : x = d
    · exact ⟨[], xs, by simp [hx], by simp⟩
    · have hd : d ∈ xs := by
        rcases List.mem_cons.mp h with h' | h'
        · exact absurd h'.symm hx
        · exact h'
      obtain ⟨l₁, l₂, he, hn⟩ := ih hd
      refine ⟨x :: l₁, l₂, by rw [he]; rfl, ?_⟩
      simp only [List.mem_cons, not_or]
      exact ⟨fun h' => hx h'.symm, hn⟩

/-- A scalar literal matches exactly its decoded form (at any probe value). -/
theorem scalar_exact (env : Env) (l : Lit) (h : isScalarLit l = true) (v : Json) :
    matchVal env (.lit l) "probe" v = .ok ↔ v = decodeLit l := by
  cases l <;> cases v <;>
    simp_all [matchVal, deepEqualLit, intCoerce, isScalarLit, decodeLit, eq_comm] <;>
    (try split_ifs <;> simp_all)

theorem unusedVals_replicate_false (xs : List Json) :
    unusedVals xs (List.replicate xs.length false) = xs := by
  induction xs with
  | nil => simp [unusedVals]
  | cons x xs' ih => simp [List.replicate_succ, unusedVals, ih]

theorem probeScan_spec (env : Env) (e : Expected) (d : Json)
    (hexact : ∀ v, matchVal env e "probe" v = .ok ↔ v = d) :
    ∀ (xs : List Json) (used : List Bool), used.length = xs.length →
    ∀ l₁ l₂, unusedVals xs used = l₁ ++ d :: l₂ → d ∉ l₁ →
      ∃ used', probeScan env e xs used = some used' ∧
        used'.length = used.length ∧ unusedVals xs used' = l₁ ++ l₂ := by
  intro xs
  induction xs with
  | nil =>
    intro used _ l₁ l₂ he _
    rw [show unusedVals [] used = [] from rfl] at he
    exact absurd he.symm (by simp)
  | cons x xs' ih =>
    intro used hlen l₁ l₂ he hn
    cases used with
    | nil => simp at hlen
    | cons u us =>
      have hlen' : us.length = xs'.length := by simpa using hlen
      cases u with
      | true =>
        rw [show unusedVals (x :: xs') (true :: us) = unusedVals xs' us from by
          simp [unusedVals]] at he
        obtain ⟨us', hp, hl, hu⟩ := ih us hlen' l₁ l₂ he hn
        refine ⟨true :: us', ?_, by simp [hl], by simp [unusedVals, hu]⟩
        simp [probeScan, hp]
      | false =>
        rw [show unusedVals (x :: xs') (false :: us) = x :: unusedVals xs' us from by
          simp [unusedVals]] at he
        cases l₁ with
        | nil =>
          simp only [List.nil_append] at he
          obtain ⟨hxd, hrest⟩ := List.cons.inj he
          have hpm : matchVal env e "probe" x = .ok := (hexact x).mpr hxd
          refine ⟨true :: us, ?_, by simp, ?_⟩
          · simp [probeScan, hpm]
          · simp [unusedVals, hrest]
        | cons y l₁' =>
          simp only [List.cons_append] at he
          obtain ⟨hxy, hrest⟩ := List.cons.inj he
          have hxd : x ≠ d := by
            intro hcontra
            apply hn
            rw [hxy] at hcontra
            simp [← hcontra]
          cases hm : matchVal env e "probe" x with
          | ok => exact absurd ((hexact x).mp hm) hxd
          | fail msg =>
            have hn' : d ∉ l₁' := fun h' => hn (List.mem_cons_of_mem _ h')
            obtain ⟨us', hp, hl, hu⟩ := ih us hlen' l₁' l₂ hrest hn'
            refine ⟨false :: us', ?_, by simp [hl], ?_⟩
            · simp [probeScan, hm, hp]
            · simp [unusedVals, hu, hxy]

theorem matchGreedy_spec (env : Env) :
    ∀ (ls : List Lit) (xs : List Json) (used : List Bool) (path : String) (i : ℕ),
    used.length = xs.length →
    (∀ l ∈ ls, isScalarLit l = true) →
    List.Perm (unusedVals xs used) (ls.map decodeLit) →
    matchGreedy env (ls.map .lit) xs used path i = .ok := by
  intro ls
  induction ls with
  | nil => intro xs used path i _ _ _; simp [matchGreedy]
  | cons l ls' ih =>
    intro xs used path i hlen hsc hperm
    have hexact := scalar_exact env l (hsc l (by simp))
    have hd : decodeLit l ∈ unusedVals xs used :=
      hperm.mem_iff.mpr (by simp)
    obtain ⟨l₁, l₂, he, hnm⟩ := mem_split_first hd
    obtain ⟨used', hp, hl, hu⟩ :=
      probeScan_spec env (.lit l) (decodeLit l) hexact xs used hlen l₁ l₂ he hnm
    have hperm' : List.Perm (unusedVals xs used') (ls'.map decodeLit) := by
      rw [hu]
      have h1 : List.Perm (l₁ ++ decodeLit l :: l₂) (decodeLit l :: ls'.map decodeLit) := by
        rw [← he]; simpa using hperm
      exact List.Perm.cons_inv (List.perm_middle.symm.trans h1)
    have hstep : matchGreedy env ((l :: ls').map .lit) xs used path i =
        matchGreedy env (ls'.map .lit) xs used' path (i + 1) := by
      simp [matchGreedy, hp]
    rw [hstep]
    exact ih xs used' path (i + 1) (hl.trans hlen) (fun l' h' => hsc l' (by simp [h'])) hperm'

/-! ### Claim theorems -/

/-- C1. `Object(E)` against a decoded object `A` succeeds iff every key of
`E` is found in `A` with a recursively matching value — extra keys of `A`
are irrelevant; `StrictObject(E)` succeeds iff additionally every key of `A`
is a key of `E` (key-set equality plus recursive matching); a key of `E`
absent from `A` yields a missing-key failure under either variant (for the
strict variant once no extra key preempts it), and an extra key of `A`
yields an unexpected-key failure under `StrictObject`. -/
theorem object_strictObject_spec (env : Env) (E : List (String × Expected))
    (A : List (String × Json)) (path : String) :
    (matchVal env (.objectM E) path (.obj A) = .ok ↔
      ∀ kv ∈ E, ∃ av, lookupKey kv.1 A = some av ∧
        matchVal env kv.2 (keyPath path kv.1) av = .ok)
    ∧ (matchVal env (.strictObjectM E) path (.obj A) = .ok ↔
      ((∀ kv ∈ E, ∃ av, lookupKey kv.1 A = some av ∧
          matchVal env kv.2 (keyPath path kv.1) av = .ok)
        ∧ ∀ kv ∈ A, (lookupKey kv.1 E).isSome = true))
    ∧ ((∃ kv ∈ E, lookupKey kv.1 A = none) →
        matchVal env (.objectM E) path (.obj A) ≠ .ok ∧
        matchVal env (.strictObjectM E) path (.obj A) ≠ .ok)
    ∧ ((∀ kv ∈ E, ∀ av, lookupKey kv.1 A = some av →
          matchVal env kv.2 (keyPath path kv.1) av = .ok) →
        (∃ kv ∈ E, lookupKey kv.1 A = none) →
        ∃ k, k ∈ keysOf E ∧ lookupKey k A = none ∧
          matchVal env (.objectM E) path (.obj A) = .fail (missingKeyMsg path k) ∧
          ((∀ kv ∈ A, (lookupKey kv.1 E).isSome = true) →
            matchVal env (.strictObjectM E) path (.obj A) = .fail (missingKeyMsg path k)))
    ∧ ((∃ kv ∈ A, lookupKey kv.1 E = none) →
        ∃ k, k ∈ keysOf A ∧ lookupKey k E = none ∧
          matchVal env (.strictObjectM E) path (.obj A) = .fail (unexpectedKeyMsg path k)) := by
  have hobj : matchVal env (.objectM E) path (.obj A) = matchFields env E A path := by
    simp [matchVal]
  have hfields := matchFields_ok_iff env E A path
  have hstrict : ∀ r, matchVal env (.strictObjectM E) path (.obj A) = r ↔
      (match checkNoExtra E A path with
       | .fail e => Res.fail e
       | .ok => matchFields env E A path) = r := by
    intro r; rw [matchVal]
  refine ⟨?_, ?_, ?_, ?_, ?_⟩
  · rw [hobj]; exact hfields
  · rw [hstrict]
    cases hc : checkNoExtra E A path with
    | ok =>
      have hall := (checkNoExtra_ok_iff E A path).mp hc
      simp only []
      rw [hfields]
      exact ⟨fun h => ⟨h, hall⟩, fun h => h.1⟩
    | fail msg =>
      simp only []
      constructor
      · intro h; cases h
      · rintro ⟨-, hsub⟩
        have := (checkNoExtra_ok_iff E A path).mpr hsub
        rw [hc] at this
        cases this
  · rintro ⟨kv, hkv, hnone⟩
    constructor
    · rw [hobj]
      intro h
      obtain ⟨av, hav, -⟩ := (hfields.mp h) kv hkv
      rw [hnone] at hav
      cases hav
    · intro h
      rw [hstrict] at h
      have hmf : matchFields env E A path = .ok := by
        cases hc : checkNoExtra E A path with
        | ok => rw [hc] at h; exact h
        | fail msg => rw [hc] at h; cases h
      obtain ⟨av, hav, -⟩ := (hfields.mp hmf) kv hkv
      rw [hnone] at hav
      cases hav
  · intro hgood hmiss
    obtain ⟨k, h1, h2, h3⟩ := matchFields_missing env E A path hgood hmiss
    refine ⟨k, h1, h2, by rw [hobj]; exact h3, ?_⟩
    intro hsub
    rw [hstrict, (checkNoExtra_ok_iff E A path).mpr hsub]
    exact h3
  · intro hextra
    obtain ⟨k, h1, h2, h3⟩ := checkNoExtra_extra E A path hextra
    refine ⟨k, h1, h2, ?_⟩
    rw [hstrict, h3]

/-- C1 witness: a concrete instance of the partial-object direction —
`Object({"a": 1})` succeeds against `{"a": 1, "b": 2}` despite the extra
key. -/
theorem object_strictObject_spec_witness :
    matchVal defaultEnv (.objectM [("a", .lit (.intL .int 1))]) "$"
      (.obj [("a", .num 1), ("b", .num 2)]) = .ok := by
  apply (object_strictObject_spec defaultEnv [("a", .lit (.intL .int 1))]
    [("a", .num 1), ("b", .num 2)] "$").1.mpr
  intro kv hkv
  simp only [List.mem_singleton] at hkv
  subst hkv
  refine ⟨.num 1, by simp [lookupKey], ?_⟩
  simp [matchVal, deepEqualLit, intCoerce]

/-- C2. `Array(e0..en-1)` against a decoded sequence succeeds iff the
lengths agree and every position matches recursively at path `path[i]`;
a length mismatch fails with the expected/actual counts, and a non-sequence
actual fails with a type mismatch. -/
theorem array_spec (env : Env) (elems : List Expected) (path : String) :
    (∀ xs : List Json,
      (matchVal env (.arrayM elems) path (.arr xs) = .ok ↔
        (xs.length = elems.length ∧
          ∀ j (h1 : j < elems.length) (h2 : j < xs.length),
            matchVal env (elems.get ⟨j, h1⟩) (idxPath path j) (xs.get ⟨j, h2⟩) = .ok))
      ∧ (xs.length ≠ elems.length →
          matchVal env (.arrayM elems) path (.arr xs) =
            .fail (lengthMsg path elems.length xs.length)))
    ∧ ∀ v : Json, (∀ xs, v ≠ .arr xs) →
        matchVal env (.arrayM elems) path v = .fail (expectedArrayMsg path v) := by
  refine ⟨fun xs => ⟨?_, ?_⟩, ?_⟩
  · by_cases hlen : xs.length = elems.length
    · have h := matchElems_ok_iff env elems xs path 0 hlen.symm
      simp only [Nat.zero_add] at h
      rw [show matchVal env (.arrayM elems) path (.arr xs) =
        matchElems env elems xs path 0 from by simp [matchVal, hlen]]
      rw [h]
      exact ⟨fun h' => ⟨hlen, h'⟩, fun h' => h'.2⟩
    · rw [show matchVal env (.arrayM elems) path (.arr xs) =
        .fail (lengthMsg path elems.length xs.length) from by simp [matchVal, hlen]]
      constructor
      · intro h; cases h
      · rintro ⟨h, -⟩; exact absurd h hlen
  · intro hlen
    simp [matchVal, hlen]
  · intro v hne
    cases v with
    | arr xs => exact absurd rfl (hne xs)
    | null => simp [matchVal]
    | bool b => simp [matchVal]
    | num q => simp [matchVal]
    | str s => simp [matchVal]
    | obj kvs => simp [matchVal]

/-- C2 witness: `Array("a")` succeeds against `["a"]` through the iff, and
the length-mismatch clause applies to `Array(1,2,3)` against `[1,2]`. -/
theorem array_spec_witness :
    matchVal defaultEnv (.arrayM [.lit (.strL "a")]) "$" (.arr [.str "a"]) = .ok
    ∧ matchVal defaultEnv
        (.arrayM [.lit (.intL .int 1), .lit (.intL .int 2), .lit (.intL .int 3)]) "$"
        (.arr [.num 1, .num 2])
      = .fail (lengthMsg "$" 3 2) := by
  constructor
  · apply ((array_spec defaultEnv [.lit (.strL "a")] "$").1 [.str "a"]).1.mpr
    refine ⟨rfl, ?_⟩
    intro j h1 h2
    simp only [List.length_singleton] at h1
    have hj : j = 0 := by omega
    subst hj
    simp [matchVal, deepEqualLit]
  · exact ((array_spec defaultEnv _ "$").1 [.num 1, .num 2]).2 (by simp)

/-- C3. The numeric coercion is exact and one-directional: a declared
signed-integer literal `n` is never deeply equal to a decoded float, and it
matches a decoded float `q` iff `(n : ℚ) = q` exactly; a declared float
literal `f` matches a decoded float `q` iff `f = q` (plain deep equality,
no tolerance, no coercion). -/
theorem int_float_coercion_spec (env : Env) (k : IntKind) (n : ℤ) (q : ℚ)
    (path : String) :
    deepEqualLit (.intL k n) (.num q) = false
    ∧ (matchVal env (.lit (.intL k n)) path (.num q) = .ok ↔ (n : ℚ) = q)
    ∧ ∀ f : ℚ, (matchVal env (.lit (.floatL f)) path (.num q) = .ok ↔ f = q) := by
  refine ⟨by simp [deepEqualLit], ?_, ?_⟩
  · by_cases h : (n : ℚ) = q <;>
      simp [matchVal, deepEqualLit, intCoerce, h]
  · intro f
    by_cases h : f = q <;>
      simp [matchVal, deepEqualLit, intCoerce, h]

/-- C3 witness: the literal `int` 5 matches the decoded float 5 exactly. -/
theorem int_float_coercion_spec_witness :
    matchVal defaultEnv (.lit (.intL .int 5)) "$" (.num 5) = .ok :=
  (int_float_coercion_spec defaultEnv .int 5 5 "$").2.1.mpr (by norm_num)

/-- C9. An unsigned-integer literal expectation is never deeply equal to a
decoded value and is excluded from the coercion switch, so against any
decoded JSON number it fails with the type/value mismatch message — even
when the two values are numerically equal. -/
theorem uint_no_coercion (env : Env) (k : UIntKind) (n : ℕ) (q : ℚ)
    (path : String) :
    matchVal env (.lit (.uintL k n)) path (.num q) =
      .fail (mismatchMsg path (toString n) (goTypeLit (.uintL k n)) (fmtQ q) "float64")
    ∧ matchVal env (.lit (.uintL k n)) path (.num q) ≠ .ok := by
  have h : matchVal env (.lit (.uintL k n)) path (.num q) =
      .fail (mismatchMsg path (toString n) (goTypeLit (.uintL k n)) (fmtQ q) "float64") := by
    simp [matchVal, deepEqualLit, intCoerce, fmtLit, fmtJson, goTypeJson]
  exact ⟨h, by rw [h]; intro h'; cases h'⟩

/-- C9 witness: the `uint` literal 5 fails against the decoded number 5,
although the two are numerically equal. -/
theorem uint_no_coercion_witness :
    matchVal defaultEnv (.lit (.uintL .uint 5)) "$" (.num 5) ≠ .ok :=
  (uint_no_coercion defaultEnv .uint 5 5 "$").2

/-- C4. The greedy first-match assignment of `UnorderedArray` does not
backtrack: for expected `[OneOf("A","B"), "B"]` against actual `["B","A"]`
a complete valid assignment exists (`OneOf` matches `"A"`, the literal
matches `"B"`), yet the matcher fails, reporting the unmatched expected
element `"B"` and its index 1 — the greedy scan consumed `"B"` for the
`OneOf` element first. -/
theorem unordered_greedy_spurious_failure :
    (matchVal defaultEnv (.oneOfM ["A", "B"]) "probe" (.str "A") = .ok
      ∧ matchVal defaultEnv (.lit (.strL "B")) "probe" (.str "B") = .ok)
    ∧ matchVal defaultEnv (.unorderedArrayM [.oneOfM ["A", "B"], .lit (.strL "B")]) "$"
        (.arr [.str "B", .str "A"])
      = .fail (unorderedNotFoundMsg "$" (.lit (.strL "B")) 1)
    ∧ unorderedNotFoundMsg "$" (.lit (.strL "B")) 1
      = "at $: expected element B (index 1) not found in remaining actual elements" := by
  refine ⟨⟨?_, ?_⟩, ?_, ?_⟩
  · simp [matchVal]
  · simp [matchVal, deepEqualLit]
  · simp [matchVal, matchGreedy, probeScan, deepEqualLit, intCoerce]
  · decide

/-- C5. Paths grow from the root sentinel `$` with `.key` on object descent
and `[index]` on array descent, and the failure message pinpoints the
offending location: `{"a":{"b":[1,2,3]}}` against
`Object({"a": Object({"b": Array(1,2,9)})})` fails at exactly `$.a.b[2]`. -/
theorem path_reporting_example :
    matchVal defaultEnv
      (.objectM [("a", .objectM [("b",
        .arrayM [.lit (.intL .int 1), .lit (.intL .int 2), .lit (.intL .int 9)])])])
      "$"
      (.obj [("a", .obj [("b", .arr [.num 1, .num 2, .num 3])])])
    = .fail "at $.a.b[2]: expected 9 (int), got 3 (float64)" := by
  simp [matchVal, matchFields, matchElems, lookupKey, deepEqualLit, intCoerce,
    mismatchMsg, atPath, keyPath, idxPath, fmtLit, fmtQ, fmtJson, goTypeLit, goTypeJson]
  decide

/-- C7 counterexample. The claim asserts that `Assert(123, 456)` fails with
a message stating "expected 456, got 123". The code formats the message the
other way around (`expected <expected> ..., got <actual> ...`): the produced
message is `at $: expected 123 (int), got 456 (float64)`, which contains
neither "expected 456" nor "got 123". -/
theorem literal_mismatch_message_counterexample :
    matchVal defaultEnv (.lit (.intL .int 123)) "$" (.num 456)
      = .fail "at $: expected 123 (int), got 456 (float64)"
    ∧ strContains "at $: expected 123 (int), got 456 (float64)" "expected 456" = false
    ∧ strContains "at $: expected 123 (int), got 456 (float64)" "got 123" = false := by
  refine ⟨?_, by decide, by decide⟩
  simp [matchVal, deepEqualLit, intCoerce, mismatchMsg, atPath, fmtLit, fmtQ, fmtJson,
    goTypeLit, goTypeJson]
  decide

/-- C7 (amended). Asserting the literal expectation 123 against the decoded
actual value 456 fails with a message stating expected 123, got 456 (the
full message being `at $: expected 123 (int), got 456 (float64)`). -/
theorem literal_mismatch_message :
    matchVal defaultEnv (.lit (.intL .int 123)) "$" (.num 456)
      = .fail "at $: expected 123 (int), got 456 (float64)"
    ∧ strContains "at $: expected 123 (int), got 456 (float64)" "expected 123" = true
    ∧ strContains "at $: expected 123 (int), got 456 (float64)" "got 456" = true := by
  refine ⟨?_, by decide, by decide⟩
  simp [matchVal, deepEqualLit, intCoerce, mismatchMsg, atPath, fmtLit, fmtQ, fmtJson,
    goTypeLit, goTypeJson]
  decide

/-- C8. `UnorderedArray` over pairwise-distinct scalar literals succeeds
against any permutation of their decoded forms: each scalar literal matches
exactly its decoded value, so the greedy scan always finds the element it
needs. -/
theorem unordered_permutation_ok (env : Env) (ls : List Lit) (xs : List Json)
    (path : String)
    (hscalar : ∀ l ∈ ls, isScalarLit l = true)
    (_hnodup : (ls.map decodeLit).Nodup)
    (hperm : List.Perm xs (ls.map decodeLit)) :
    matchVal env (.unorderedArrayM (ls.map .lit)) path (.arr xs) = .ok := by
  have hlen : xs.length = (ls.map Expected.lit).length := by
    simpa using hperm.length_eq
  rw [show matchVal env (.unorderedArrayM (ls.map .lit)) path (.arr xs) =
      matchGreedy env (ls.map .lit) xs (List.replicate xs.length false) path 0 from by
    simp [matchVal, hlen]]
  exact matchGreedy_spec env ls xs (List.replicate xs.length false) path 0
    (by simp) hscalar (by rw [unusedVals_replicate_false]; exact hperm)

/-- C8 witness: `UnorderedArray(1,2,3)` succeeds against the decoded array
`[3,1,2]`. -/
theorem unordered_permutation_ok_witness :
    matchVal defaultEnv
      (.unorderedArrayM [.lit (.intL .int 1), .lit (.intL .int 2), .lit (.intL .int 3)])
      "$" (.arr [.num 3, .num 1, .num 2]) = .ok := by
  have hperm : List.Perm ([Json.num 3, Json.num 1, Json.num 2])
      ([Lit.intL .int 1, .intL .int 2, .intL .int 3].map decodeLit) := by
    have p1 : List.Perm [Json.num 3, Json.num 1, Json.num 2]
        [Json.num 1, Json.num 3, Json.num 2] := List.Perm.swap _ _ _
    have p2 : List.Perm [Json.num 1, Json.num 3, Json.num 2]
        [Json.num 1, Json.num 2, Json.num 3] :=
      List.Perm.cons _ (List.Perm.swap _ _ _)
    simpa [decodeLit] using p1.trans p2
  exact unordered_permutation_ok defaultEnv
    [.intL .int 1, .intL .int 2, .intL .int 3]
    [.num 3, .num 1, .num 2] "$"
    (by decide) (by simp [decodeLit]) hperm

theorem strData_append (s t : String) : (s ++ t).data = s.data ++ t.data := rfl

theorem isPrefixOf_append_self (l r : List Char) : l.isPrefixOf (l ++ r) = true := by
  induction l with
  | nil => simp [List.isPrefixOf]
  | cons c cs ih => simp [List.isPrefixOf, ih]

theorem strContains_of_data (m a p b : String)
    (h : m.data = a.data ++ (p.data ++ b.data)) : strContains m p = true := by
  rw [strContains, List.any_eq_true]
  refine ⟨a.data.length, List.mem_range.mpr ?_, ?_⟩
  · rw [h]
    simp only [List.length_append]
    omega
  · rw [h, List.drop_left]
    exact isPrefixOf_append_self p.data b.data

/-- C6. An invalid regular-expression pattern does not fail `Regexp` at
construction time: construction yields an ordinary matcher carrying the
compile error. The problem surfaces only when that matcher runs on a string
value, as a match failure whose message cites the invalid pattern; on a
non-string value the ordinary expected-string failure is produced instead. -/
theorem regexp_lazy_failure (env : Env) (eng : RegexEngine) (p e : String)
    (hc : eng.compile p = .error e) :
    Regexp eng p = .regexpM p (.error e)
    ∧ (∀ path s, matchVal env (Regexp eng p) path (.str s)
        = .fail (invalidPatternMsg path p e))
    ∧ (∀ path, strContains (invalidPatternMsg path p e) p = true)
    ∧ (∀ path v, (∀ s, v ≠ .str s) →
        matchVal env (Regexp eng p) path v = .fail (expectedStringMsg path v)) := by
  have hr : Regexp eng p = .regexpM p (.error e) := by rw [Regexp, hc]
  refine ⟨hr, ?_, ?_, ?_⟩
  · intro path s
    rw [hr]
    simp [matchVal]
  · intro path
    apply strContains_of_data _ ("at " ++ path ++ ": " ++ "invalid regexp pattern " ++ "\"")
      _ ("\"" ++ ": " ++ e)
    simp [invalidPatternMsg, atPath, goQuote, strData_append, List.append_assoc]
  · intro path v hne
    rw [hr]
    cases v with
    | str s => exact absurd rfl (hne s)
    | null => simp [matchVal]
    | bool b => simp [matchVal]
    | num q => simp [matchVal]
    | arr xs => simp [matchVal]
    | obj kvs => simp [matchVal]

/-- C6 witness: with an engine rejecting the pattern `"("`, construction
succeeds and matching the string `"abc"` surfaces the configuration error. -/
theorem regexp_lazy_failure_witness :
    Regexp ⟨fun _ => .error "missing closing )"⟩ "("
      = .regexpM "(" (.error "missing closing )")
    ∧ matchVal defaultEnv (Regexp ⟨fun _ => .error "missing closing )"⟩ "(") "$"
        (.str "abc")
      = .fail (invalidPatternMsg "$" "(" "missing closing )") := by
  have h := regexp_lazy_failure defaultEnv ⟨fun _ => .error "missing closing )"⟩
    "(" "missing closing )" rfl
  exact ⟨h.1, h.2.1 "$" "abc"⟩

/-- C10. `TimeWithinRange(startTime, endTime)` is inclusive at both
endpoints: for an actual string parsing (RFC 3339) to instant `t`, the
matcher succeeds iff `startTime ≤ t ≤ endTime` — it fails only for instants
strictly before the start or strictly after the end. -/
theorem timeWithinRange_inclusive (env : Env) (a b : ℤ) (path s : String)
    (t : ℤ) (hp : env.rfc3339 s = .ok t) :
    matchVal env (TimeWithinRange a b) path (.str s) = .ok ↔ (a ≤ t ∧ t ≤ b) := by
  rw [TimeWithinRange]
  by_cases h : t < a ∨ b < t
  · rw [show matchVal env (.timeWithinRangeM a b) path (.str s)
      = .fail (timeRangeMsg path a b t) from by simp [matchVal, hp, h]]
    constructor
    · intro h'; cases h'
    · intro h'; omega
  · rw [show matchVal env (.timeWithinRangeM a b) path (.str s) = .ok from by
      simp [matchVal, hp, h]]
    constructor
    · intro _; omega
    · intro _; rfl

/-- C10 witness: at the exact start endpoint (`t = startTime = 5`,
`endTime = 9`) the matcher succeeds. -/
theorem timeWithinRange_inclusive_witness :
    matchVal ⟨fun _ => Except.ok 5⟩ (TimeWithinRange 5 9) "$" (.str "x") = .ok :=
  (timeWithinRange_inclusive ⟨fun _ => Except.ok 5⟩ 5 9 "$" "x" 5 rfl).mpr
    (by omega)

end Bodyguard
